import Mathlib

/-!
Verification of the Freelancer-hub load balancer core against its
specification.  The JavaScript source is shallowly embedded: backend
descriptors become a structure, the selection algorithms become pure
functions over lists, the abuse-mitigation middleware becomes a state
transformer, and the affinity codec becomes executable encode/decode
functions over byte lists.
-/

/-- A backend descriptor, from `config/server.js` entries as used by
`loadBalancer.js`: `{ url, active, connections }`.  `connections` is a JS
number mutated by `++`/`--`, so it is embedded as an integer. -/
structure Server where
  url : String
  active : Bool
  connections : Int
deriving Repr, DecidableEq

/-- Dispatch step of the proxy handler (`loadBalancer.js` line 168):
`assignedServer.connections++` runs just before `proxy.web`. -/
def dispatchForward (s : Server) : Server :=
  { s with connections := s.connections + 1 }

/-- Completion step of the forward (`loadBalancer.js` lines 170-183): the
only decrement of `connections` in the source is inside the error callback
passed to `proxy.web`, which runs only when the forward fails; the source
has no decrement on the success path. -/
def completeForward (failed : Bool) (s : Server) : Server :=
  if failed then { s with connections := s.connections - 1 } else s

/-- Least-connections selection (`loadBalancer.js` lines 127-133):
filter the active servers, return `null` when none, otherwise
`reduce((prev, curr) => prev.connections < curr.connections ? prev : curr)`
(a left fold started at the first active server). -/
def getLeastLoadedServer (servers : List Server) : Option Server :=
  match servers.filter (fun s => s.active) with
  | [] => none
  | x :: xs =>
      some (xs.foldl
        (fun prev curr => if prev.connections < curr.connections then prev else curr) x)

/-- Round-robin selection from the second source file (part_000 lines
259-266): filter active servers; with none, answer 503 (embedded as `none`);
otherwise read `activeServers[currentServerIndex]` (JS indexing past the end
yields `undefined`, embedded as the inner `Option`), then advance the cursor
by `(currentServerIndex + 1) % activeServers.length`. -/
def roundRobinSelect (servers : List Server) (currentServerIndex : Nat) :
    Option (Option Server × Nat) :=
  let activeServers := servers.filter (fun s => s.active)
  if activeServers.length = 0 then none
  else some (activeServers[currentServerIndex]?,
             (currentServerIndex + 1) % activeServers.length)

/-- C1: evaluation of the forward counter at the failing input.  A backend
with `connections = 0` receives one dispatch whose forward completes
successfully; the source decrements only in the error callback, so the
counter stays at 1 although zero forwards remain in flight, contradicting
the claim that completion (success or failure) decrements exactly once. -/
theorem forward_success_counter_stuck :
    (completeForward false
        (dispatchForward ⟨"http://localhost:5000", true, 0⟩)).connections = 1 ∧
    (completeForward false
        (dispatchForward ⟨"http://localhost:5000", true, 0⟩)).connections ≠ 0 := by
  decide

/-- C2 counterexample: two active backends registered in this order with
equal `connections`; the fold keeps `curr` on ties, so selection returns the
second (later-registered) backend, refuting the claim that the earliest
registered backend wins ties. -/
theorem getLeastLoadedServer_tie_returns_last :
    getLeastLoadedServer
        [⟨"http://localhost:5000", true, 0⟩, ⟨"http://localhost:5001", true, 0⟩]
      = some ⟨"http://localhost:5001", true, 0⟩ ∧
    (⟨"http://localhost:5001", true, 0⟩ : Server)
      ≠ ⟨"http://localhost:5000", true, 0⟩ := by
  decide

/-- C3: evaluation at the failing trace.  With two active backends the first
selection returns the first backend and advances the cursor to 1; after the
second backend is marked unavailable, the next selection still runs (the
active set is nonempty) but reads index 1 of a one-element list, i.e. JS
`undefined`, refuting the claim that the cursor is always within the current
available-set bounds. -/
theorem roundRobin_stale_cursor_out_of_bounds :
    roundRobinSelect
        [⟨"http://localhost:5000", true, 0⟩, ⟨"http://localhost:5001", true, 0⟩] 0
      = some (some ⟨"http://localhost:5000", true, 0⟩, 1) ∧
    roundRobinSelect
        [⟨"http://localhost:5000", true, 0⟩, ⟨"http://localhost:5001", false, 0⟩] 1
      = some (none, 0) := by
  decide

/-- The left fold of the least-connections reduction returns an element of
the list that attains the minimum `connections`, and every element strictly
after it (in registration order) has strictly larger `connections`, i.e. on
ties the last encountered element wins. -/
theorem foldl_leastConn_spec (xs : List Server) (x : Server) :
    ∃ pre post,
      x :: xs = pre ++
        (xs.foldl
          (fun prev curr => if prev.connections < curr.connections then prev else curr)
          x) :: post ∧
      (∀ s ∈ x :: xs,
        (xs.foldl
          (fun prev curr => if prev.connections < curr.connections then prev else curr)
          x).connections ≤ s.connections) ∧
      (∀ s ∈ post,
        (xs.foldl
          (fun prev curr => if prev.connections < curr.connections then prev else curr)
          x).connections < s.connections) := by
  induction xs generalizing x with
  | nil =>
      exact ⟨[], [], rfl, by simp, by simp⟩
  | cons y ys ih =>
      simp only [List.foldl_cons]
      by_cases hxy : x.connections < y.connections
      · simp only [if_pos hxy]
        obtain ⟨pre, post, hdec, hmin, hstrict⟩ := ih x
        cases pre with
        | nil =>
            rw [List.nil_append] at hdec
            obtain ⟨hx, hpost⟩ := List.cons.inj hdec
            refine ⟨[], y :: post, ?_, ?_, ?_⟩
            · rw [List.nil_append, ← hx, ← hpost]
            · intro s hs
              rcases List.mem_cons.mp hs with h | hs
              · subst h; rw [← hx]
              · rcases List.mem_cons.mp hs with h | hs
                · subst h; rw [← hx]; exact le_of_lt hxy
                · exact hmin s (List.mem_cons_of_mem x hs)
            · intro s hs
              rcases List.mem_cons.mp hs with h | hs
              · subst h; rw [← hx]; exact hxy
              · exact hstrict s hs
        | cons p pre' =>
            rw [List.cons_append] at hdec
            obtain ⟨hp, htail⟩ := List.cons.inj hdec
            refine ⟨x :: y :: pre', post, ?_, ?_, ?_⟩
            · rw [List.cons_append, List.cons_append, ← htail]
            · intro s hs
              rcases List.mem_cons.mp hs with h | hs
              · rw [h]; exact hmin x (List.mem_cons_self x ys)
              · rcases List.mem_cons.mp hs with h | hs
                · rw [h]
                  exact le_trans (hmin x (List.mem_cons_self x ys)) (le_of_lt hxy)
                · exact hmin s (List.mem_cons_of_mem x hs)
            · exact hstrict
      · simp only [if_neg hxy]
        obtain ⟨pre, post, hdec, hmin, hstrict⟩ := ih y
        cases pre with
        | nil =>
            rw [List.nil_append] at hdec
            obtain ⟨hy, hpost⟩ := List.cons.inj hdec
            refine ⟨[x], post, ?_, ?_, ?_⟩
            · rw [List.cons_append, List.nil_append, ← hy, ← hpost]
            · intro s hs
              rcases List.mem_cons.mp hs with h | hs
              · subst h; rw [← hy]; exact le_of_not_lt hxy
              · exact hmin s hs
            · intro s hs; exact hstrict s hs
        | cons p pre' =>
            rw [List.cons_append] at hdec
            obtain ⟨hp, htail⟩ := List.cons.inj hdec
            refine ⟨x :: y :: pre', post, ?_, ?_, ?_⟩
            · rw [List.cons_append, List.cons_append, ← htail]
            · intro s hs
              rcases List.mem_cons.mp hs with h | hs
              · subst h
                exact le_trans (hmin y (List.mem_cons_self y ys)) (le_of_not_lt hxy)
              · exact hmin s hs
            · exact hstrict

/-- C2 (amended): for every non-empty set of available backends,
least-connections selection returns an available backend from the pool whose
`connections` is the minimum over the available set; when several available
backends share that minimum, the one LATEST in pool registration order (last
encountered) is returned, expressed here by a decomposition of the available
list in which every backend after the returned one has strictly larger
`connections`. -/
theorem getLeastLoadedServer_min_lastTie (servers : List Server) (r : Server)
    (hr : getLeastLoadedServer servers = some r) :
    r ∈ servers ∧ r.active = true ∧
    (∀ s ∈ servers, s.active = true → r.connections ≤ s.connections) ∧
    ∃ pre post, servers.filter (fun s => s.active) = pre ++ r :: post ∧
      ∀ s ∈ post, r.connections < s.connections := by
  unfold getLeastLoadedServer at hr
  cases hfilter : servers.filter (fun s => s.active) with
  | nil => rw [hfilter] at hr; exact absurd hr (by simp)
  | cons x xs =>
      rw [hfilter] at hr
      obtain ⟨pre, post, hdec, hmin, hstrict⟩ := foldl_leastConn_spec xs x
      have hfold :
          (xs.foldl
            (fun prev curr => if prev.connections < curr.connections then prev else curr)
            x) = r := by
        exact Option.some.inj hr
      rw [hfold] at hdec hmin hstrict
      have hrmem : r ∈ servers.filter (fun s => s.active) := by
        rw [hfilter, hdec]
        exact List.mem_append_right pre (List.mem_cons_self r post)
      have hrmem' := List.mem_filter.mp hrmem
      refine ⟨hrmem'.1, by simpa using hrmem'.2, ?_, pre, post, hdec, hstrict⟩
      intro s hs hact
      have : s ∈ servers.filter (fun t => t.active) :=
        List.mem_filter.mpr ⟨hs, by simp [hact]⟩
      rw [hfilter] at this
      exact hmin s this

/-- Witness for the amended C2 theorem at a concrete pool: three active
backends with connections 2, 1, 1; the minimum is 1 and the selection
returns the last of the two tied backends. -/
theorem getLeastLoadedServer_min_lastTie_witness :
    (⟨"http://localhost:5002", true, 1⟩ : Server) ∈
        [(⟨"http://localhost:5000", true, 2⟩ : Server),
         ⟨"http://localhost:5001", true, 1⟩, ⟨"http://localhost:5002", true, 1⟩] ∧
    (⟨"http://localhost:5002", true, 1⟩ : Server).active = true ∧
    (∀ s ∈ [(⟨"http://localhost:5000", true, 2⟩ : Server),
            ⟨"http://localhost:5001", true, 1⟩, ⟨"http://localhost:5002", true, 1⟩],
        s.active = true →
        (⟨"http://localhost:5002", true, 1⟩ : Server).connections ≤ s.connections) ∧
    ∃ pre post,
      ([(⟨"http://localhost:5000", true, 2⟩ : Server),
        ⟨"http://localhost:5001", true, 1⟩,
        ⟨"http://localhost:5002", true, 1⟩].filter (fun s => s.active))
        = pre ++ (⟨"http://localhost:5002", true, 1⟩ : Server) :: post ∧
      ∀ s ∈ post, (⟨"http://localhost:5002", true, 1⟩ : Server).connections < s.connections :=
  getLeastLoadedServer_min_lastTie
    [⟨"http://localhost:5000", true, 2⟩, ⟨"http://localhost:5001", true, 1⟩,
     ⟨"http://localhost:5002", true, 1⟩]
    ⟨"http://localhost:5002", true, 1⟩ (by decide)

/-- Per-client rate record (`loadBalancer.js` line 99 and part_000 line 204):
`{ count, startTime }` stored in the `requestCounts` map. -/
structure RateRecord where
  count : Nat
  startTime : Nat
deriving Repr, DecidableEq

/-- The shared abuse-mitigation state: the `requestCounts` map embedded as an
insertion-ordered association list (JS `Map` preserves insertion order and
has unique keys) and the `blockedIPs` set embedded as a list of identifiers. -/
structure GuardState where
  requestCounts : List (String × RateRecord)
  blockedIPs : List String
deriving Repr, DecidableEq

/-- JS `Map.set`: replace the value of an existing key in place, or append
the new key at the end. -/
def updateAssoc : List (String × RateRecord) → String → RateRecord →
    List (String × RateRecord)
  | [], k, v => [(k, v)]
  | (k', v') :: rest, k, v =>
      if k' = k then (k, v) :: rest else (k', v') :: updateAssoc rest k v

/-- Outcome of one request through the two abuse middlewares. -/
inductive ReqOutcome where
  /-- 403 from the blocked-IP middleware. -/
  | blocked403
  /-- 403 from the rate-limit middleware (the request that trips the limit). -/
  | rateLimited403
  /-- `next()` reached: the request proceeds to selection and forwarding. -/
  | allowed
deriving Repr, DecidableEq

/-- The two abuse middlewares of `loadBalancer.js` lines 80-115 (identical in
part_000 lines 185-221), run in source order for one request from `ip` at
time `now`: first the blocked-IP check (403, no state change, when `ip` is in
`blockedIPs`); then the rate limiter: an unseen ip is recorded as
`{count:1, startTime:now}`; otherwise `data.count++` mutates the stored
record, then a window rollover (`now - startTime > W`) overwrites it with
`{count:1, startTime:now}`, else a count above the limit adds `ip` to
`blockedIPs` and answers 403. -/
def handleRequest (limit W : Nat) (ip : String) (now : Nat) (st : GuardState) :
    GuardState × ReqOutcome :=
  if st.blockedIPs.contains ip then (st, .blocked403)
  else
    match st.requestCounts.lookup ip with
    | none =>
        ({ st with requestCounts := updateAssoc st.requestCounts ip ⟨1, now⟩ },
         .allowed)
    | some data =>
        let data1 : RateRecord := ⟨data.count + 1, data.startTime⟩
        if now - data1.startTime > W then
          ({ st with requestCounts := updateAssoc st.requestCounts ip ⟨1, now⟩ },
           .allowed)
        else if data1.count > limit then
          ({ requestCounts := updateAssoc st.requestCounts ip data1,
             blockedIPs := st.blockedIPs ++ [ip] },
           .rateLimited403)
        else
          ({ st with requestCounts := updateAssoc st.requestCounts ip data1 },
           .allowed)

/-- The periodic unblock reaper (part_000 lines 224-233): every entry of
`requestCounts` whose window has elapsed is deleted, and its identifier is
also deleted from `blockedIPs`. -/
def unblockReaper (now W : Nat) (st : GuardState) : GuardState :=
  { requestCounts :=
      st.requestCounts.filter (fun e => !(decide (now - e.2.startTime > W))),
    blockedIPs :=
      st.blockedIPs.filter (fun q =>
        !(st.requestCounts.any (fun e => e.1 == q && decide (now - e.2.startTime > W)))) }

/-- Sequential processing of a batch of requests from one identifier, used to
state the 101-requests scenario. -/
def runRequests (limit W : Nat) (ip : String) (ts : List Nat) (st : GuardState) :
    GuardState × List ReqOutcome :=
  match ts with
  | [] => (st, [])
  | t :: rest =>
      let step := handleRequest limit W ip t st
      let tail := runRequests limit W ip rest step.1
      (tail.1, step.2 :: tail.2)

/-- C10: a request from an identifier already in `blockedIPs` is answered 403
by the blocked-IP middleware and the whole rate-limiting state is returned
unchanged — neither `requestCounts` nor `blockedIPs` is mutated. -/
theorem blocked_request_frame (limit W : Nat) (ip : String) (now : Nat)
    (st : GuardState) (hblocked : st.blockedIPs.contains ip = true) :
    handleRequest limit W ip now st = (st, ReqOutcome.blocked403) := by
  unfold handleRequest
  rw [hblocked]
  simp

/-- Witness for C10 at a concrete blocked state. -/
theorem blocked_request_frame_witness :
    handleRequest 100 60000 "10.0.0.9" 555
        ⟨[("10.0.0.9", ⟨7, 100⟩)], ["10.0.0.9"]⟩
      = (⟨[("10.0.0.9", ⟨7, 100⟩)], ["10.0.0.9"]⟩, ReqOutcome.blocked403) :=
  blocked_request_frame 100 60000 "10.0.0.9" 555
    ⟨[("10.0.0.9", ⟨7, 100⟩)], ["10.0.0.9"]⟩ (by decide)

/-- After a `Map.set`, looking up the written key returns the written value. -/
theorem lookup_updateAssoc_self (l : List (String × RateRecord)) (ip : String)
    (v : RateRecord) : (updateAssoc l ip v).lookup ip = some v := by
  induction l with
  | nil => simp [updateAssoc, List.lookup]
  | cons e rest ih =>
      obtain ⟨k, w⟩ := e
      by_cases hk : k = ip
      · simp [updateAssoc, hk, List.lookup]
      · simp only [updateAssoc, if_neg hk, List.lookup]
        rw [show (ip == k) = false from beq_eq_false_iff_ne.mpr (Ne.symm hk)]
        exact ih

/-- C5 counterexample: identifier with record `{count:101, startTime:0}` and
currently blocked; a request arrives at `now = 70000`, well past the 60000ms
window.  The blocked-IP middleware answers 403 before the rate limiter runs:
the record is NOT reset, the blocked status is NOT cleared, and the request
is NOT allowed — refuting the claim that the request-check path clears
Blocked status on window rollover. -/
theorem rollover_blocked_not_cleared :
    handleRequest 100 60000 "203.0.113.5" 70000
        ⟨[("203.0.113.5", ⟨101, 0⟩)], ["203.0.113.5"]⟩
      = (⟨[("203.0.113.5", ⟨101, 0⟩)], ["203.0.113.5"]⟩, ReqOutcome.blocked403) ∧
    (70000 : Nat) - 0 > 60000 := by
  decide

/-- C5 (amended): the window-rollover reset happens only for identifiers that
are not currently blocked.  For an unblocked identifier with a tracked record
whose window has elapsed, the request is allowed and the record is reset to
`{count:1, startTime:now}`; the blocked set is untouched by this path (a
blocked identifier never reaches it, and Blocked status is cleared only by
the reaper). -/
theorem rollover_resets_unblocked (limit W : Nat) (ip : String) (now : Nat)
    (st : GuardState) (rec : RateRecord)
    (hnb : st.blockedIPs.contains ip = false)
    (hrec : st.requestCounts.lookup ip = some rec)
    (hexp : now - rec.startTime > W) :
    (handleRequest limit W ip now st).2 = ReqOutcome.allowed ∧
    (handleRequest limit W ip now st).1.requestCounts.lookup ip
      = some ⟨1, now⟩ ∧
    (handleRequest limit W ip now st).1.blockedIPs = st.blockedIPs := by
  unfold handleRequest
  rw [hnb, hrec]
  simp only [Bool.false_eq_true, if_false, if_pos hexp]
  exact ⟨trivial, lookup_updateAssoc_self st.requestCounts ip ⟨1, now⟩, trivial⟩

/-- Witness for the amended C5 theorem: an unblocked identifier tracked with
`{count:42, startTime:0}` sends a request at 70000 under a 60000ms window. -/
theorem rollover_resets_unblocked_witness :
    (handleRequest 100 60000 "198.51.100.7" 70000
        ⟨[("198.51.100.7", ⟨42, 0⟩)], []⟩).2 = ReqOutcome.allowed ∧
    (handleRequest 100 60000 "198.51.100.7" 70000
        ⟨[("198.51.100.7", ⟨42, 0⟩)], []⟩).1.requestCounts.lookup "198.51.100.7"
      = some ⟨1, 70000⟩ ∧
    (handleRequest 100 60000 "198.51.100.7" 70000
        ⟨[("198.51.100.7", ⟨42, 0⟩)], []⟩).1.blockedIPs
      = (⟨[("198.51.100.7", ⟨42, 0⟩)], []⟩ : GuardState).blockedIPs :=
  rollover_resets_unblocked 100 60000 "198.51.100.7" 70000
    ⟨[("198.51.100.7", ⟨42, 0⟩)], []⟩ ⟨42, 0⟩ (by decide) (by decide) (by decide)

/-- In an association list with pairwise distinct keys, a key determines its
value. -/
theorem assocNodupKeys_value_eq (l : List (String × RateRecord)) (ip : String)
    (a b : RateRecord) (hnodup : (l.map Prod.fst).Nodup)
    (ha : (ip, a) ∈ l) (hb : (ip, b) ∈ l) : a = b := by
  induction l with
  | nil => cases ha
  | cons e rest ih =>
      obtain ⟨k, w⟩ := e
      rw [List.map_cons, List.nodup_cons] at hnodup
      have hk := hnodup.1
      rcases List.mem_cons.mp ha with h1 | h1 <;>
        rcases List.mem_cons.mp hb with h2 | h2
      · injection h1 with hip hval
        injection h2 with hip2 hval2
        rw [hval, ← hval2]
      · injection h1 with hip hval
        subst hip
        exact absurd (List.mem_map_of_mem Prod.fst h2) hk
      · injection h2 with hip2 hval2
        subst hip2
        exact absurd (List.mem_map_of_mem Prod.fst h1) hk
      · exact ih hnodup.2 h1 h2

/-- C4: one run of the periodic unblock reaper deletes the record of every
tracked identifier whose window has elapsed (`now - startTime > W`) and
removes that identifier from the blocked set, with no hypothesis on whether
the identifier was blocked. -/
theorem reaper_clears_expired (now W : Nat) (st : GuardState) (ip : String)
    (rec : RateRecord)
    (hmem : (ip, rec) ∈ st.requestCounts)
    (hexp : now - rec.startTime > W)
    (hnodup : (st.requestCounts.map Prod.fst).Nodup) :
    (∀ e ∈ (unblockReaper now W st).requestCounts, e.1 ≠ ip) ∧
    ip ∉ (unblockReaper now W st).blockedIPs := by
  constructor
  · intro e he hkey
    obtain ⟨hin, hpred⟩ := List.mem_filter.mp he
    have : e.2 = rec := by
      refine assocNodupKeys_value_eq st.requestCounts ip e.2 rec hnodup ?_ hmem
      rw [← hkey]; exact hin
    rw [Bool.not_eq_eq_eq_not, Bool.not_true, decide_eq_false_iff_not] at hpred
    rw [this] at hpred
    exact hpred hexp
  · intro hmem'
    obtain ⟨_, hpred⟩ := List.mem_filter.mp hmem'
    rw [Bool.not_eq_eq_eq_not, Bool.not_true, List.any_eq_false] at hpred
    have := hpred (ip, rec) hmem
    rw [Bool.and_eq_true, beq_iff_eq, decide_eq_true_eq] at this
    exact this ⟨rfl, hexp⟩

/-- Witness for C4: a blocked identifier whose record is expired is removed
from both maps by the reaper. -/
theorem reaper_clears_expired_witness :
    (∀ e ∈ (unblockReaper 70000 60000
        ⟨[("192.0.2.1", ⟨101, 0⟩)], ["192.0.2.1"]⟩).requestCounts,
      e.1 ≠ "192.0.2.1") ∧
    "192.0.2.1" ∉ (unblockReaper 70000 60000
        ⟨[("192.0.2.1", ⟨101, 0⟩)], ["192.0.2.1"]⟩).blockedIPs :=
  reaper_clears_expired 70000 60000 ⟨[("192.0.2.1", ⟨101, 0⟩)], ["192.0.2.1"]⟩
    "192.0.2.1" ⟨101, 0⟩ (by decide) (by decide) (by decide)

/-- Unfolding equation for one request followed by the rest of a batch. -/
theorem runRequests_cons (limit W : Nat) (ip : String) (t : Nat) (ts : List Nat)
    (st : GuardState) :
    runRequests limit W ip (t :: ts) st =
      ((runRequests limit W ip ts (handleRequest limit W ip t st).1).1,
       (handleRequest limit W ip t st).2 ::
         (runRequests limit W ip ts (handleRequest limit W ip t st).1).2) := rfl

/-- A blocked identifier short-circuits at the blocked-IP middleware with no
state change (helper shared by several claim proofs). -/
theorem handleRequest_of_blocked (limit W : Nat) (ip : String) (now : Nat)
    (st : GuardState) (hblocked : st.blockedIPs.contains ip = true) :
    handleRequest limit W ip now st = (st, ReqOutcome.blocked403) := by
  unfold handleRequest
  rw [hblocked]
  simp

/-- Processing a batch of requests splits along list append. -/
theorem runRequests_append (limit W : Nat) (ip : String) (l1 l2 : List Nat) :
    ∀ st : GuardState,
      runRequests limit W ip (l1 ++ l2) st =
        ((runRequests limit W ip l2 (runRequests limit W ip l1 st).1).1,
         (runRequests limit W ip l1 st).2 ++
           (runRequests limit W ip l2 (runRequests limit W ip l1 st).1).2) := by
  induction l1 with
  | nil => intro st; simp [runRequests]
  | cons t rest ih =>
      intro st
      rw [List.cons_append, runRequests_cons, runRequests_cons, ih, List.cons_append]

/-- Once an identifier is in the blocked set, every further request from it
is rejected by the blocked-IP middleware and the state never changes. -/
theorem runRequests_blocked (limit W : Nat) (ip : String) (ts : List Nat)
    (st : GuardState) (hblocked : st.blockedIPs.contains ip = true) :
    runRequests limit W ip ts st = (st, List.replicate ts.length .blocked403) := by
  induction ts with
  | nil => simp [runRequests]
  | cons t rest ih =>
      rw [runRequests_cons, handleRequest_of_blocked limit W ip t st hblocked]
      simp [ih, List.replicate_succ]

/-- While an identifier has a tracked record `{count:k, startTime:t0}`, is
not blocked, and each request stays inside the window with the running count
staying at or below the limit, every request is allowed and the count grows
by one per request. -/
theorem runRequests_within_window (limit W : Nat) (ip : String) (t0 : Nat) :
    ∀ (ts : List Nat) (k : Nat), 1 ≤ k → k + ts.length ≤ limit →
      (∀ t ∈ ts, t - t0 ≤ W) →
      runRequests limit W ip ts ⟨[(ip, ⟨k, t0⟩)], []⟩
        = (⟨[(ip, ⟨k + ts.length, t0⟩)], []⟩,
           List.replicate ts.length .allowed) := by
  intro ts
  induction ts with
  | nil => intro k _ _ _; simp [runRequests]
  | cons t rest ih =>
      intro k hk hlim hwin
      have hnw : ¬ (t - t0 > W) := by
        have := hwin t (List.mem_cons_self t rest)
        omega
      have hnl : ¬ (k + 1 > limit) := by
        simp only [List.length_cons] at hlim
        omega
      have hstep : handleRequest limit W ip t ⟨[(ip, ⟨k, t0⟩)], []⟩
          = (⟨[(ip, ⟨k + 1, t0⟩)], []⟩, .allowed) := by
        simp [handleRequest, updateAssoc, List.lookup, hnw, hnl]
      rw [runRequests_cons, hstep]
      have hrest := ih (k + 1) (by omega)
        (by simp only [List.length_cons] at hlim; omega)
        (fun t' ht' => hwin t' (List.mem_cons_of_mem t ht'))
      rw [hrest]
      simp only [List.length_cons, List.replicate_succ]
      rw [show k + 1 + rest.length = k + (rest.length + 1) from by omega]

/-- C8: starting from a fresh state, an identifier sending 101 requests
inside one 60000ms window under limit 100 gets the first 100 requests
allowed; the 101st (the request pushing the count to 101) is rejected 403 by
the rate limiter and puts the identifier into the blocked set; every
subsequent request is rejected 403 by the blocked-IP middleware. -/
theorem rateLimit_101_requests (ip : String) (t0 : Nat) (mid : List Nat)
    (t100 : Nat) (more : List Nat)
    (hlen : mid.length = 99)
    (hmid : ∀ t ∈ mid, t - t0 ≤ 60000)
    (ht100 : t100 - t0 ≤ 60000) :
    runRequests 100 60000 ip (t0 :: (mid ++ t100 :: more)) ⟨[], []⟩
      = (⟨[(ip, ⟨101, t0⟩)], [ip]⟩,
         ReqOutcome.allowed ::
           (List.replicate 99 .allowed ++
             .rateLimited403 :: List.replicate more.length .blocked403)) := by
  have h0 : handleRequest 100 60000 ip t0 ⟨[], []⟩
      = (⟨[(ip, ⟨1, t0⟩)], []⟩, .allowed) := by
    simp [handleRequest, updateAssoc, List.lookup]
  have hmidrun := runRequests_within_window 100 60000 ip t0 mid 1 (by omega)
    (by omega) hmid
  rw [hlen] at hmidrun
  have h1 : handleRequest 100 60000 ip t100 ⟨[(ip, ⟨100, t0⟩)], []⟩
      = (⟨[(ip, ⟨101, t0⟩)], [ip]⟩, .rateLimited403) := by
    have hnw : ¬ (t100 - t0 > 60000) := by omega
    simp [handleRequest, updateAssoc, List.lookup, hnw]
  have hmore := runRequests_blocked 100 60000 ip more
    ⟨[(ip, ⟨101, t0⟩)], [ip]⟩ (by simp)
  rw [runRequests_cons, h0, runRequests_append, hmidrun, runRequests_cons, h1,
    hmore]

/-- Witness for C8: 101 requests all at time 0 plus two more; first 100
allowed, the 101st rate-limited, the rest blocked. -/
theorem rateLimit_101_requests_witness :
    runRequests 100 60000 "198.51.100.23"
        (0 :: (List.replicate 99 0 ++ 0 :: [0, 0])) ⟨[], []⟩
      = (⟨[("198.51.100.23", ⟨101, 0⟩)], ["198.51.100.23"]⟩,
         ReqOutcome.allowed ::
           (List.replicate 99 .allowed ++
             .rateLimited403 :: List.replicate 2 .blocked403)) :=
  rateLimit_101_requests "198.51.100.23" 0 (List.replicate 99 0) 0 [0, 0]
    (by simp) (by simp) (by decide)

/-- Modelled from the spec: the affinity codec. `loadBalancer.js` lines 55-77
wrap Node's `crypto` AES-256-CBC primitives, which are not part of this
repository; per the spec the codec is a "reversible, keyed encode/decode of a
backend identity into an opaque token".  Bytes are embedded as `ZMod 256`
(identity strings are treated as their byte sequences), and the block
transform is modelled as a keyed invertible byte transform with CBC-style
chaining from the fixed IV, with PKCS#7-style padding to the 16-byte block
size and a lowercase hex wire encoding, mirroring the structure of
`createCipheriv`/`createDecipheriv` with `utf8`/`hex` encodings.  A hex
digit character for a value below 16. -/
def hexDigit (n : Nat) : Char :=
  if n < 10 then Char.ofNat (48 + n) else Char.ofNat (87 + n)

/-- Modelled from the spec: strict inverse of `hexDigit` (the value whose
digit is `c`, if any). -/
def hexVal (c : Char) : Option (Fin 16) :=
  (List.finRange 16).find? (fun i => hexDigit i.val == c)

/-- Modelled from the spec: hex encoding of a byte sequence, two lowercase
digits per byte (Node `cipher.final("hex")`). -/
def hexEncodeChars : List (ZMod 256) → List Char
  | [] => []
  | b :: bs => hexDigit (b.val / 16) :: hexDigit (b.val % 16) :: hexEncodeChars bs

/-- Modelled from the spec: hex decoding; fails on odd length or a non-digit
character (Node `decipher.update(text, "hex")` rejecting malformed input). -/
def hexDecodeChars : List Char → Option (List (ZMod 256))
  | [] => some []
  | [_] => none
  | c1 :: c2 :: rest =>
      match hexVal c1, hexVal c2, hexDecodeChars rest with
      | some h, some l, some bs =>
          some (((h.val * 16 + l.val : Nat) : ZMod 256) :: bs)
      | _, _, _ => none

/-- Modelled from the spec: CBC-style chained keyed byte transform (the
encryption direction of the AES-256-CBC core, keyed by `key` and chained
from the previous output byte, starting at the IV). -/
def cbcEncBytes (key : ZMod 256) : ZMod 256 → List (ZMod 256) → List (ZMod 256)
  | _, [] => []
  | prev, p :: ps => (p + prev + key) :: cbcEncBytes key (p + prev + key) ps

/-- Modelled from the spec: inverse chained transform (the decryption
direction of the AES-256-CBC core). -/
def cbcDecBytes (key : ZMod 256) : ZMod 256 → List (ZMod 256) → List (ZMod 256)
  | _, [] => []
  | prev, c :: cs => (c - prev - key) :: cbcDecBytes key c cs

/-- Modelled from the spec: PKCS#7 padding to the 16-byte block size, as
performed by `cipher.final`. -/
def padBlock (p : List (ZMod 256)) : List (ZMod 256) :=
  p ++ List.replicate (16 - p.length % 16) ((16 - p.length % 16 : Nat) : ZMod 256)

/-- Modelled from the spec: PKCS#7 unpadding with full validation, as
performed by `decipher.final` (which throws on bad padding, embedded here as
`none`). -/
def unpadBlock (b : List (ZMod 256)) : Option (List (ZMod 256)) :=
  match b.getLast? with
  | none => none
  | some padByte =>
      if 1 ≤ padByte.val ∧ padByte.val ≤ 16 ∧ padByte.val ≤ b.length ∧
          (b.drop (b.length - padByte.val)).all (fun x => x == padByte)
      then some (b.take (b.length - padByte.val)) else none

/-- The `encrypt` function of `loadBalancer.js` lines 55-60: pad, run the
keyed chained transform from the fixed IV, and hex-encode. -/
def encrypt (key iv : ZMod 256) (text : List (ZMod 256)) : String :=
  String.mk (hexEncodeChars (cbcEncBytes key iv (padBlock text)))

/-- The `decrypt` function of `loadBalancer.js` lines 63-77: hex-decode,
require whole blocks, invert the chained transform and unpad; every failure
is caught and returned as `null` (embedded as `none`). -/
def decrypt (key iv : ZMod 256) (token : String) : Option (List (ZMod 256)) :=
  match hexDecodeChars token.data with
  | none => none
  | some cs =>
      if cs.length % 16 = 0 then unpadBlock (cbcDecBytes key iv cs) else none

/-- Hex digits decode back to their value. -/
theorem hexVal_hexDigit : ∀ i : Fin 16, hexVal (hexDigit i.val) = some i := by
  decide

/-- A successful hex-digit decode pins down the character. -/
theorem hexDigit_of_hexVal (c : Char) (i : Fin 16) (h : hexVal c = some i) :
    hexDigit i.val = c := by
  have := List.find?_some h
  exact beq_iff_eq.mp this

/-- Hex decoding inverts hex encoding. -/
theorem hexDecode_hexEncode : ∀ bs : List (ZMod 256),
    hexDecodeChars (hexEncodeChars bs) = some bs := by
  intro bs
  induction bs with
  | nil => rfl
  | cons b bs ih =>
      have hval : b.val < 256 := ZMod.val_lt b
      have hd : b.val / 16 < 16 := by omega
      have hm : b.val % 16 < 16 := by omega
      have h1 := hexVal_hexDigit ⟨b.val / 16, hd⟩
      have h2 := hexVal_hexDigit ⟨b.val % 16, hm⟩
      simp only [Fin.val_mk] at h1 h2
      show hexDecodeChars
          (hexDigit (b.val / 16) :: hexDigit (b.val % 16) :: hexEncodeChars bs)
        = some (b :: bs)
      simp only [hexDecodeChars, h1, h2, ih, Fin.val_mk, Option.some.injEq]
      rw [show b.val / 16 * 16 + b.val % 16 = b.val from by omega,
        ZMod.natCast_zmod_val]

/-- Auxiliary bounded-length version: a successful hex decode determines the
input character list, so re-encoding reproduces it. -/
theorem hexEncode_of_hexDecode_aux : ∀ (n : Nat) (cs : List Char),
    cs.length ≤ n → ∀ bs : List (ZMod 256),
    hexDecodeChars cs = some bs → hexEncodeChars bs = cs := by
  intro n
  induction n with
  | zero =>
      intro cs hle bs h
      match cs, hle with
      | [], _ =>
          rw [show bs = [] from by
            simpa [hexDecodeChars] using h.symm]
          rfl
  | succ n ih =>
      intro cs hle bs h
      match cs with
      | [] =>
          rw [show bs = [] from by simpa [hexDecodeChars] using h.symm]
          rfl
      | [c] => simp [hexDecodeChars] at h
      | c1 :: c2 :: rest =>
          cases hv1 : hexVal c1 with
          | none => simp [hexDecodeChars, hv1] at h
          | some hdig =>
              cases hv2 : hexVal c2 with
              | none => simp [hexDecodeChars, hv1, hv2] at h
              | some ldig =>
                  cases hrest : hexDecodeChars rest with
                  | none => simp [hexDecodeChars, hv1, hv2, hrest] at h
                  | some bs' =>
                      simp only [hexDecodeChars, hv1, hv2, hrest,
                        Option.some.injEq] at h
                      have hdlt : hdig.val < 16 := hdig.isLt
                      have hllt : ldig.val < 16 := ldig.isLt
                      have hbyte :
                          ((hdig.val * 16 + ldig.val : Nat) : ZMod 256).val
                            = hdig.val * 16 + ldig.val :=
                        ZMod.val_cast_of_lt (by omega)
                      rw [← h]
                      show hexDigit
                            (((hdig.val * 16 + ldig.val : Nat) : ZMod 256).val / 16) ::
                          hexDigit
                            (((hdig.val * 16 + ldig.val : Nat) : ZMod 256).val % 16) ::
                          hexEncodeChars bs'
                        = c1 :: c2 :: rest
                      rw [hbyte,
                        show (hdig.val * 16 + ldig.val) / 16 = hdig.val from by omega,
                        show (hdig.val * 16 + ldig.val) % 16 = ldig.val from by omega,
                        hexDigit_of_hexVal c1 hdig hv1,
                        hexDigit_of_hexVal c2 ldig hv2,
                        ih rest (by simp at hle; omega) bs' hrest]

/-- A successful hex decode determines the input: re-encoding reproduces it. -/
theorem hexEncode_of_hexDecode (cs : List Char) (bs : List (ZMod 256))
    (h : hexDecodeChars cs = some bs) : hexEncodeChars bs = cs :=
  hexEncode_of_hexDecode_aux cs.length cs le_rfl bs h

/-- The chained decryption direction inverts the chained encryption
direction. -/
theorem cbcDec_cbcEnc (key : ZMod 256) : ∀ (ps : List (ZMod 256)) (prev : ZMod 256),
    cbcDecBytes key prev (cbcEncBytes key prev ps) = ps := by
  intro ps
  induction ps with
  | nil => intro prev; rfl
  | cons p ps ih =>
      intro prev
      show (p + prev + key - prev - key) ::
          cbcDecBytes key (p + prev + key) (cbcEncBytes key (p + prev + key) ps)
        = p :: ps
      rw [ih, show p + prev + key - prev - key = p from by ring]

/-- The chained encryption direction inverts the chained decryption
direction. -/
theorem cbcEnc_cbcDec (key : ZMod 256) : ∀ (cs : List (ZMod 256)) (prev : ZMod 256),
    cbcEncBytes key prev (cbcDecBytes key prev cs) = cs := by
  intro cs
  induction cs with
  | nil => intro prev; rfl
  | cons c cs ih =>
      intro prev
      show (c - prev - key + prev + key) ::
          cbcEncBytes key (c - prev - key + prev + key) (cbcDecBytes key c cs)
        = c :: cs
      rw [show c - prev - key + prev + key = c from by ring, ih]

/-- The chained transforms preserve length. -/
theorem length_cbcDecBytes (key : ZMod 256) : ∀ (cs : List (ZMod 256)) (prev : ZMod 256),
    (cbcDecBytes key prev cs).length = cs.length := by
  intro cs
  induction cs with
  | nil => intro prev; rfl
  | cons c cs ih => intro prev; simp [cbcDecBytes, ih]

/-- The chained encryption direction preserves length. -/
theorem length_cbcEncBytes (key : ZMod 256) : ∀ (ps : List (ZMod 256)) (prev : ZMod 256),
    (cbcEncBytes key prev ps).length = ps.length := by
  intro ps
  induction ps with
  | nil => intro prev; rfl
  | cons p ps ih => intro prev; simp [cbcEncBytes, ih]

/-- Dispatch form of `unpadBlock` once the last byte is known. -/
theorem unpadBlock_eq_of_getLast (b : List (ZMod 256)) (x : ZMod 256)
    (h : b.getLast? = some x) :
    unpadBlock b =
      if 1 ≤ x.val ∧ x.val ≤ 16 ∧ x.val ≤ b.length ∧
          (b.drop (b.length - x.val)).all (fun y => y == x)
      then some (b.take (b.length - x.val)) else none := by
  unfold unpadBlock
  rw [h]

/-- Unpadding inverts padding. -/
theorem unpadBlock_padBlock (p : List (ZMod 256)) :
    unpadBlock (padBlock p) = some p := by
  have hmod : p.length % 16 < 16 := by omega
  have hn1 : 1 ≤ 16 - p.length % 16 := by omega
  have hcast : ((16 - p.length % 16 : Nat) : ZMod 256).val = 16 - p.length % 16 :=
    ZMod.val_cast_of_lt (by omega)
  have hlast : (padBlock p).getLast?
      = some ((16 - p.length % 16 : Nat) : ZMod 256) := by
    unfold padBlock
    rw [List.getLast?_append_of_ne_nil _ (by simp; omega),
      List.getLast?_replicate, if_neg (by omega)]
  have hlen : (padBlock p).length = p.length + (16 - p.length % 16) := by
    simp [padBlock]
  rw [unpadBlock_eq_of_getLast (padBlock p) _ hlast, hcast]
  rw [if_pos ?cond]
  case cond =>
    refine ⟨hn1, by omega, by omega, ?_⟩
    rw [hlen, show p.length + (16 - p.length % 16) - (16 - p.length % 16)
        = p.length from by omega]
    unfold padBlock
    rw [List.drop_left]
    simp
  rw [hlen, show p.length + (16 - p.length % 16) - (16 - p.length % 16)
      = p.length from by omega]
  unfold padBlock
  rw [List.take_left]

/-- Dispatch form of `unpadBlock` for an empty input. -/
theorem unpadBlock_none_of_getLast (b : List (ZMod 256)) (h : b.getLast? = none) :
    unpadBlock b = none := by
  unfold unpadBlock
  rw [h]

/-- Padding is the only preimage of a successful unpad of a whole-block
buffer: re-padding the unpadded plaintext reproduces the buffer. -/
theorem padBlock_of_unpadBlock (b p : List (ZMod 256))
    (hlen16 : b.length % 16 = 0) (h : unpadBlock b = some p) :
    padBlock p = b := by
  cases hlast : b.getLast? with
  | none =>
      rw [unpadBlock_none_of_getLast b hlast] at h
      exact absurd h (by simp)
  | some x =>
      rw [unpadBlock_eq_of_getLast b x hlast] at h
      split_ifs at h with hcond
      · obtain ⟨h1, h16, hlenx, hall⟩ := hcond
        have hp : p = b.take (b.length - x.val) := (Option.some.inj h).symm
        have hplen : p.length = b.length - x.val := by
          rw [hp, List.length_take]; omega
        have hm : 16 - p.length % 16 = x.val := by
          rw [hplen]; omega
        have hdl : (b.drop (b.length - x.val)).length = x.val := by
          rw [List.length_drop]; omega
        have hdrop : b.drop (b.length - x.val) = List.replicate x.val x := by
          have hmem : ∀ y ∈ b.drop (b.length - x.val), y = x := by
            intro y hy
            exact beq_iff_eq.mp (List.all_eq_true.mp hall y hy)
          calc b.drop (b.length - x.val)
              = List.replicate (b.drop (b.length - x.val)).length x :=
                List.eq_replicate_length.mpr hmem
            _ = List.replicate x.val x := by rw [hdl]
        unfold padBlock
        rw [hm, ZMod.natCast_zmod_val, hp, ← hdrop]
        exact List.take_append_drop _ b

/-- Dispatch form of `decrypt` once the hex decode is known to succeed. -/
theorem decrypt_eq_of_hexDecode (key iv : ZMod 256) (token : String)
    (cs : List (ZMod 256)) (h : hexDecodeChars token.data = some cs) :
    decrypt key iv token =
      if cs.length % 16 = 0 then unpadBlock (cbcDecBytes key iv cs) else none := by
  unfold decrypt
  rw [h]

/-- Dispatch form of `decrypt` for a failing hex decode. -/
theorem decrypt_none_of_hexDecode (key iv : ZMod 256) (token : String)
    (h : hexDecodeChars token.data = none) : decrypt key iv token = none := by
  unfold decrypt
  rw [h]

/-- C6: round trip of the affinity codec — decoding a token produced by
encoding any identity under the same process-lifetime key and IV returns
exactly that identity. -/
theorem decrypt_encrypt (key iv : ZMod 256) (text : List (ZMod 256)) :
    decrypt key iv (encrypt key iv text) = some text := by
  have hdec : hexDecodeChars (encrypt key iv text).data
      = some (cbcEncBytes key iv (padBlock text)) := by
    show hexDecodeChars (hexEncodeChars (cbcEncBytes key iv (padBlock text)))
      = some (cbcEncBytes key iv (padBlock text))
    exact hexDecode_hexEncode _
  rw [decrypt_eq_of_hexDecode key iv _ _ hdec]
  rw [if_pos ?len]
  case len =>
    rw [length_cbcEncBytes]
    simp only [padBlock, List.length_append, List.length_replicate]
    omega
  rw [cbcDec_cbcEnc, unpadBlock_padBlock]

/-- A successful decode pins down its input: the token was exactly the
encoding of the decoded identity. -/
theorem encrypt_of_decrypt (key iv : ZMod 256) (b : String) (p : List (ZMod 256))
    (h : decrypt key iv b = some p) : encrypt key iv p = b := by
  cases hdec : hexDecodeChars b.data with
  | none =>
      rw [decrypt_none_of_hexDecode key iv b hdec] at h
      exact absurd h (by simp)
  | some cs =>
      rw [decrypt_eq_of_hexDecode key iv b cs hdec] at h
      split_ifs at h with hlen
      · have hpad : padBlock p = cbcDecBytes key iv cs :=
          padBlock_of_unpadBlock _ p (by rw [length_cbcDecBytes]; exact hlen) h
        unfold encrypt
        rw [hpad, cbcEnc_cbcDec, hexEncode_of_hexDecode _ _ hdec]

/-- C7: any token that is not the encoding of some identity decodes to the
invalid outcome `none` (the embedded form of `null`, the only failure signal
`decrypt` can return since it catches every error). -/
theorem decrypt_not_encoded_none (key iv : ZMod 256) (b : String)
    (hb : ¬ ∃ text, encrypt key iv text = b) : decrypt key iv b = none := by
  cases hd : decrypt key iv b with
  | none => rfl
  | some p => exact absurd ⟨p, encrypt_of_decrypt key iv b p hd⟩ hb

/-- An encoded token is never the empty string (padding guarantees at least
one block: thirty-two hex characters). -/
theorem encrypt_ne_empty (key iv : ZMod 256) (text : List (ZMod 256)) :
    encrypt key iv text ≠ "" := by
  intro h
  have hdata : hexEncodeChars (cbcEncBytes key iv (padBlock text)) = [] :=
    congrArg String.data h
  cases hcs : cbcEncBytes key iv (padBlock text) with
  | nil =>
      have hlen := length_cbcEncBytes key (padBlock text) iv
      rw [hcs] at hlen
      simp only [List.length_nil, padBlock, List.length_append,
        List.length_replicate] at hlen
      omega
  | cons c cs' =>
      rw [hcs] at hdata
      simp [hexEncodeChars] at hdata

/-- Witness for C7: the empty string is not a produced token (tokens are at
least one block long), and decoding it yields `none`. -/
theorem decrypt_not_encoded_none_witness : decrypt 7 3 "" = none :=
  decrypt_not_encoded_none 7 3 ""
    (fun hex => match hex with
      | ⟨t, ht⟩ => encrypt_ne_empty 7 3 t ht)
